import Mathlib

/-
Verification development for the Wagerr-Electrum header-chain engine
(src/electrum/blockchain.py, src/electrum/constants.py).

Modelling conventions:
* Python `bytes` and hex strings are both modelled as `List Nat` of byte
  values; the hex codec helpers `bfh`/`bh2u` (bitcoin.py, not under src/)
  are inverse bijections between the two and are modelled away.  A 64-hex
  character digest such as `'0' * 64` is accordingly modelled as 32 zero
  bytes.
* `hash_encode x` (display form of a digest) is `x.reverse` on bytes.
* `rev_hex x` on a hex string is `x.reverse` on its bytes.
* The concrete hash primitives `sha256d` (crypto.py) and
  `quark_hash.getPoWHash` are not under src/ and are taken as abstract
  function parameters; nothing proved here depends on their values.
* Machine integers: Python ints are unbounded, so `Nat`/`Int` are exact.
-/

namespace WagerrSpec

/-- Byte strings (Python `bytes`), each entry intended to be `< 256`. -/
abbrev Bytes := List Nat

/-! ## Constants from src/electrum/blockchain.py (lines 38-43) -/

/-- `MIN_POW = 0x00000FFF...F` (5 zero nibbles, 59 F nibbles). -/
def MIN_POW : Nat := 0x00000FFFFFFFFFFFFFFFFFFFFFFFFFFFFFFFFFFFFFFFFFFFFFFFFFFFFFFFFFFF

/-- `DGW_TARGET_SPACING = int(1 * 60)`. -/
def DGW_TARGET_SPACING : Nat := 60

/-- `DGW_PAST_BLOCKS = 24`. -/
def DGW_PAST_BLOCKS : Nat := 24

/-- `LAST_POW_BLOCK = 1001`. -/
def LAST_POW_BLOCK : Nat := 1001

/-- `MAX_TARGET = 0x00000FFFF000...0`. -/
def MAX_TARGET : Nat := 0x00000FFFF0000000000000000000000000000000000000000000000000000000

/-- `bnTargetLimit` from `Blockchain.get_target_wagerr` (line 554):
`0x000000FF...F` (6 zero nibbles, 58 F nibbles). -/
def bnTargetLimit : Nat := 0x000000FFFFFFFFFFFFFFFFFFFFFFFFFFFFFFFFFFFFFFFFFFFFFFFFFFFFFFFFFF

/-- Mainnet `GENESIS` hash from src/electrum/constants.py (BitcoinMainnet),
as display-order bytes of
"000007b9191bc7a17bfb6cedf96a8dacebb5730b498361bf26d44a9f9dcc1079". -/
def GENESIS : Bytes :=
  [0x00, 0x00, 0x07, 0xb9, 0x19, 0x1b, 0xc7, 0xa1,
   0x7b, 0xfb, 0x6c, 0xed, 0xf9, 0x6a, 0x8d, 0xac,
   0xeb, 0xb5, 0x73, 0x0b, 0x49, 0x83, 0x61, 0xbf,
   0x26, 0xd4, 0x4a, 0x9f, 0x9d, 0xcc, 0x10, 0x79]

/-- Modelled from the spec: `PRE_ZEROCOIN_HEADER_SIZE` comes from coins.py
which is not under src/; the spec's layout policy fixes the base header
size, and the field slicing in `deserialize_header` pins it to 80 bytes. -/
def PRE_ZEROCOIN_HEADER_SIZE : Nat := 80

/-! ## Header records -/

/-- A deserialized header dict.  Hash-valued fields are display-order byte
lists; `prev_block_hash` is optional because the Python dict may hold
`None` there (see `hash_header`).  `timestamp` and `block_height` are
`Int` because the code subtracts them. -/
structure Header where
  version : Nat
  prev_block_hash : Option Bytes
  merkle_root : Bytes
  timestamp : Int
  bits : Nat
  nonce : Nat
  block_height : Int
  acc_check_point : Bytes
  deriving Repr, DecidableEq

/-! ## Codec helpers

Modelled from the spec: `int_to_hex`/little-endian decoding live in
bitcoin.py, which is not under src/.  The spec (section 4.1) states the
fixed fields are (de)serialized little-endian. -/

/-- Little-endian 4-byte encoding of an integer (`int_to_hex(i, 4)`);
negative values are wrapped modulo 2^32 as the Python helper does. -/
def intToLE4 (i : Int) : Bytes :=
  let v : Nat := (i % (2 ^ 32 : Nat)).toNat
  [v % 256, v / 256 % 256, v / 2 ^ 16 % 256, v / 2 ^ 24 % 256]

/-- Little-endian byte decoding (`int.from_bytes(s, byteorder='little')`). -/
def decodeLE (bs : Bytes) : Nat :=
  bs.foldr (fun b acc => acc * 256 + b) 0

/-! ## serialize_header / deserialize_header / hash_header
(src/electrum/blockchain.py lines 52-95) -/

/-- Body of `serialize_header` once `prev_block_hash` is known to be a
real digest: little-endian fixed fields, display hashes reversed to wire
order, and the accumulator checkpoint appended (appending the reverse of
an empty list equals Python's length-guarded append). -/
def serializeFields (version : Nat) (prev : Bytes) (merkle : Bytes)
    (timestamp : Int) (bits : Nat) (nonce : Nat) (acc : Bytes) : Bytes :=
  intToLE4 version ++ prev.reverse ++ merkle.reverse
    ++ intToLE4 timestamp ++ intToLE4 bits ++ intToLE4 nonce ++ acc.reverse

/-- `serialize_header(header_dict)`: `none` models the `TypeError` the
Python code raises when `prev_block_hash` is `None`. -/
def serialize_header (h : Header) : Option Bytes :=
  h.prev_block_hash.map fun p =>
    serializeFields h.version p h.merkle_root h.timestamp h.bits h.nonce
      h.acc_check_point

/-- Slice `s[a:b]` of a byte string. -/
def slice (s : Bytes) (a b : Nat) : Bytes := (s.drop a).take (b - a)

/-- `deserialize_header(s, height)`.  Modelled from the spec:
`constants.net.COIN.check_header_size` lives in coins.py which is not
under src/; the spec says deserialization fails with `InvalidHeader`
exactly when the input is empty or its length differs from the size the
layout policy mandates for `height`.  The layout policy itself is the
abstract parameter `sizeAt`. -/
def deserialize_header (sizeAt : Int → Nat) (s : Bytes) (height : Int) :
    Except String Header :=
  if s = [] then .error "Invalid header"
  else if s.length ≠ sizeAt height then .error "Invalid header length"
  else .ok
    { version := decodeLE (slice s 0 4)
      prev_block_hash := some (slice s 4 36).reverse
      merkle_root := (slice s 36 68).reverse
      timestamp := (decodeLE (slice s 68 72) : Nat)
      bits := decodeLE (slice s 72 76)
      nonce := decodeLE (slice s 76 80)
      block_height := height
      acc_check_point :=
        if PRE_ZEROCOIN_HEADER_SIZE < s.length then
          (s.drop PRE_ZEROCOIN_HEADER_SIZE).reverse
        else [] }

/-- `hash_raw_header(header)`: dispatches on the leading version marker
byte (`'01'` selects the legacy quark hash, anything else double-SHA256);
the digest is returned in display order (`hash_encode` reverses). -/
def hash_raw_header (quarkF sha256F : Bytes → Bytes) (s : Bytes) : Bytes :=
  if s.head? = some 1 then (quarkF s).reverse else (sha256F s).reverse

/-- `hash_header(header)`: `None` hashes to the all-zero digest; a `None`
`prev_block_hash` is replaced by the all-zero hash before serializing. -/
def hash_header (quarkF sha256F : Bytes → Bytes) (h : Option Header) : Bytes :=
  match h with
  | none => List.replicate 32 0
  | some hdr =>
      hash_raw_header quarkF sha256F
        (serializeFields hdr.version
          (hdr.prev_block_hash.getD (List.replicate 32 0))
          hdr.merkle_root hdr.timestamp hdr.bits hdr.nonce
          hdr.acc_check_point)

/-! ## root_from_proof (src/electrum/blockchain.py lines 746-756) -/

/-- `root_from_proof(hash, branch, index)`: the Python `for` loop over
`branch` becomes structural recursion; the post-loop `if index:` check is
performed in the base case on the fully shifted index. -/
def root_from_proof (hashF : Bytes → Bytes) (h : Bytes) :
    List Bytes → Nat → Except String Bytes
  | [], index =>
      if index ≠ 0 then .error "index out of range for branch" else .ok h
  | elt :: rest, index =>
      root_from_proof hashF
        (if index % 2 = 1 then hashF (elt ++ h) else hashF (h ++ elt))
        rest (index / 2)

/-- Whether an `Except` value is an error. -/
def isErr {ε α : Type} : Except ε α → Bool
  | .error _ => true
  | .ok _ => false

/-! ## bits_to_target / target_to_bits
(src/electrum/blockchain.py lines 611-630) -/

/-- `Blockchain.bits_to_target(bits)`; `none` models the raised
`Exception` on an out-of-range exponent or mantissa. -/
def bits_to_target (bits : Nat) : Option Nat :=
  let bitsN := (bits >>> 24) &&& 0xff
  if 3 ≤ bitsN ∧ bitsN ≤ 0x1e then
    let bitsBase := bits &&& 0xffffff
    if 0x8000 ≤ bitsBase ∧ bitsBase ≤ 0x7fffff then
      some (bitsBase <<< (8 * (bitsN - 3)))
    else none
  else none

/-- The `while c[:2] == '00' and len(c) > 6` loop of `target_to_bits`:
the hex string `c` is modelled as the pair (value `v`, byte length `n`)
with the invariant `v < 2 ^ (8 * n)`, under which the leading byte pair
of `c` is `'00'` exactly when `v / 2 ^ (8 * (n - 1)) = 0`. -/
def stripZeros (v : Nat) : Nat → Nat × Nat
  | 0 => (v, 0)
  | n + 1 =>
      if 3 < n + 1 ∧ v / 2 ^ (8 * n) = 0 then stripZeros v n else (v, n + 1)

/-- `Blockchain.target_to_bits(target)`: `("%064x" % target)[2:]` keeps
the low 31 bytes (value mod 2^248), leading zero byte pairs are stripped
down to at least 3 bytes, `c[:6]` reads the top 3 remaining bytes, and
the mantissa is renormalized when its top bit is set. -/
def target_to_bits (target : Nat) : Nat :=
  let p := stripZeros (target % 2 ^ 248) 31
  let v := p.1
  let n := p.2
  let bitsBase := v / 2 ^ (8 * (n - 3))
  if 0x800000 ≤ bitsBase then ((n + 1) <<< 24) ||| (bitsBase >>> 8)
  else (n <<< 24) ||| bitsBase

/-! ## Difficulty engine (src/electrum/blockchain.py lines 518-609) -/

/-- `header_from_chain` inside `get_target_wagerr`: first the persisted
chain (`read_header`, abstracted as `readH`), then the in-progress
`chain` list scanned in order. -/
def headerFromChain (readH : Int → Option Header) (chain : List Header)
    (bh : Int) : Option Header :=
  match readH bh with
  | some h => some h
  | none => chain.find? fun hdr => hdr.block_height == bh

/-- `isfTimeV2(height)`: height at or past `nBlockTimeProtocolV2`. -/
def isfTimeV2 (height : Int) : Bool := decide (1501000 ≤ height)

/-- Iterations `count = 2 .. 24` of the dark-gravity-wave loop in
`get_target_wagerr`.  Each Python iteration first uses the header stepped
to at the end of the previous iteration, so the model steps `last` back,
decodes its bits, and folds it into the running average; `none` models
the exception on a missing header or undecodable bits.  `remaining`
counts iterations left, `count` is the Python loop variable. -/
def dgwGo (hfc : Int → Option Header) :
    Nat → Nat → Nat → Header → Option (Nat × Header)
  | 0, _, avg, last => some (avg, last)
  | r + 1, count, avg, last => do
      let lastN ← hfc (last.block_height - 1)
      let t ← bits_to_target lastN.bits
      dgwGo hfc r (count + 1) ((avg * count + t) / (count + 1)) lastN

/-- `Blockchain.get_target_wagerr(height, chain)`.  `none` models a
raised exception (failed assert, missing header inside a loop, or
undecodable bits); all Python integer divisions here act on non-negative
operands, so `Nat` division is exact. -/
def get_target_wagerr (readH : Int → Option Header) (chain : List Header)
    (height : Int) : Option Nat :=
  if height ≤ 0 then none
  else
    match headerFromChain readH chain (height - 1) with
    | none => some MIN_POW
    | some last =>
      if height < (DGW_PAST_BLOCKS : Int) then some MIN_POW
      else if (LAST_POW_BLOCK : Int) < height - 1 then do
        let fTimeV2 := isfTimeV2 height
        let nTargetSpacing : Nat := 60
        let nTargetTimespan : Nat := if fTimeV2 then 2 * 15 * 60 else 40 * 60
        let nActualSpacing : Int ←
          if height - 1 ≠ 0 then do
            let lastToLast ← headerFromChain readH chain (height - 2)
            pure (last.timestamp - lastToLast.timestamp)
          else pure 0
        let a1 : Int := if nActualSpacing < 0 then 1 else nActualSpacing
        let a2 : Int :=
          if fTimeV2 ∧ (nTargetSpacing : Int) * 10 < a1 then
            (nTargetSpacing : Int) * 10
          else a1
        let t ← bits_to_target last.bits
        let t2 := if fTimeV2 ∧ ¬ (isfTimeV2 (height - 1) = true) then t <<< 4 else t
        let nInterval := nTargetTimespan / nTargetSpacing
        let newTarget :=
          t2 * ((nInterval - 1) * nTargetSpacing + a2.toNat + a2.toNat)
            / ((nInterval + 1) * nTargetSpacing)
        pure (if newTarget = 0 ∨ bnTargetLimit < newTarget then bnTargetLimit
              else newTarget)
      else do
        let t1 ← bits_to_target last.bits
        let r ← dgwGo (headerFromChain readH chain) 23 2 t1 last
        let endTime := last.timestamp
        let timeSpan : Int := endTime - r.2.timestamp
        let targetTimespan : Nat := DGW_PAST_BLOCKS * DGW_TARGET_SPACING
        let ts1 : Int := max timeSpan ((targetTimespan : Int) / 3)
        let ts2 : Int := min ts1 ((targetTimespan : Int) * 3)
        let newTarget := r.1 * ts2.toNat / targetTimespan
        pure (min newTarget MIN_POW)

/-- The post-proof-of-work target formula exactly as claim C2 words it
(spec side of the refinement, to be compared with `get_target`): the
target decoded from the previous header's bits, shifted left by 4 bits
once if time-protocol v2 is active at `height` but was not at
`height - 1`, multiplied by `(I-1)*spacing + 2*actual_spacing` and
integer-divided by `(I+1)*spacing` where `I = timespan / spacing`, with
negative actual spacing set to 1 and, under v2, actual spacing capped at
10 times the target spacing, and the result clamped to the interval
`[1, bnTargetLimit]`. -/
def claimC2Formula (readH : Int → Option Header) (chain : List Header)
    (height : Int) : Option Nat := do
  let last ← headerFromChain readH chain (height - 1)
  let lastToLast ← headerFromChain readH chain (height - 2)
  let t0 ← bits_to_target last.bits
  let t1 := if isfTimeV2 height ∧ ¬ (isfTimeV2 (height - 1) = true) then
    t0 <<< 4 else t0
  let spacing : Nat := 60
  let timespan : Nat := if isfTimeV2 height then 2 * 15 * 60 else 40 * 60
  let I := timespan / spacing
  let a0 : Int := last.timestamp - lastToLast.timestamp
  let a1 : Int := if a0 < 0 then 1 else a0
  let a2 : Int :=
    if isfTimeV2 height ∧ (spacing : Int) * 10 < a1 then (spacing : Int) * 10
    else a1
  let raw := t1 * ((I - 1) * spacing + 2 * a2.toNat) / ((I + 1) * spacing)
  pure (max 1 (min raw bnTargetLimit))

/-- `Blockchain.get_target(height, chain)` (checkpoint shortcut is
commented out in the source). -/
def get_target (testnet : Bool) (readH : Int → Option Header)
    (chain : List Header) (height : Int) : Option Nat :=
  if testnet then some 0
  else if height = 0 then some MAX_TARGET
  else get_target_wagerr readH chain height

/-! ## Chainwork (src/electrum/blockchain.py lines 632-664) -/

/-- `Blockchain.chainwork_of_header_at_height(height)`: work of a single
header, `((2^256 - target - 1) // (target + 1)) + 1`.  Every reachable
target is below `2^256` (`MIN_POW`, `MAX_TARGET`, `bnTargetLimit` and the
`min` clamps), so `Nat` subtraction is exact. -/
def chainwork_of_header_at_height (readH : Int → Option Header)
    (height : Nat) : Option Nat :=
  (get_target false readH [] (height : Int)).map fun target =>
    (2 ^ 256 - target - 1) / (target + 1) + 1

/-- The forward accumulation loop of `get_chainwork` run from the
height `-1` sentinel: total work of the first `k` full retarget chunks,
each counted as `2016 * work(header at the chunk's last height)`. -/
def fullChunksWork (readH : Int → Option Header) : Nat → Option Nat
  | 0 => some 0
  | k + 1 => do
      let prev ← fullChunksWork readH k
      let w ← chainwork_of_header_at_height readH ((k + 1) * 2016 - 1)
      pure (prev + 2016 * w)

/-- `Blockchain.get_chainwork(height)` on a non-test network, modelled as
the value the code computes when the chainwork cache holds only the
height `-1` sentinel.  Cache entries are only ever written with these
same deterministic values, so a warm cache returns the same number. -/
def get_chainwork (readH : Int → Option Header) (height : Nat) :
    Option Nat := do
  let q := height / 2016
  let full ← fullChunksWork readH q
  let w ← chainwork_of_header_at_height readH ((q + 1) * 2016 - 1)
  pure (full + (height % 2016 + 1) * w)

/-! ## get_hash (src/electrum/blockchain.py lines 505-516) -/

/-- `Blockchain.get_hash(height)` over an abstract `read_header`
(`readH`); `.error` models the raised `MissingHeader`. -/
def get_hash (quarkF sha256F : Bytes → Bytes)
    (readH : Int → Option Header) (height : Int) : Except String Bytes :=
  if height = -1 then .ok (List.replicate 32 0)
  else if height = 0 then .ok GENESIS
  else
    match readH height with
    | none => .error "MissingHeader"
    | some hdr => .ok (hash_header quarkF sha256F (some hdr))

/-! ## Chain segments and the parent swap
(src/electrum/blockchain.py lines 380-441, 477-498)

The byte store of a chain is modelled at header granularity: the file
holding serialized headers for heights `forkpoint, forkpoint+1, ...`
becomes a `List Header`, and the byte offsets computed through the layout
policy's cumulative `static_header_offset` (coins.py, not under src/)
become list indices. -/

/-- One chain's own segment: `forkpoint` and its stored headers. -/
structure ChainSeg where
  forkpoint : Nat
  headers : List Header
  deriving Repr, DecidableEq

/-- `Blockchain.read_header(height)`: negative heights give `None`,
heights below `forkpoint` delegate to the parent, heights above the tip
give `None`, and in-range heights read the own store. -/
def chainRead (c : ChainSeg) (parentRead : Int → Option Header)
    (height : Int) : Option Header :=
  if height < 0 then none
  else if height < (c.forkpoint : Int) then parentRead height
  else if (c.forkpoint : Int) + c.headers.length - 1 < height then none
  else c.headers.get? (height - c.forkpoint).toNat

/-- `Blockchain._swap_with_parent` data movement.  The guard is the
code's `parent.get_chainwork() >= self.get_chainwork()` early return.  On
a swap, the child's old file receives the parent's headers from the
child's forkpoint upward (`parent_branch_size` records read at the
forkpoint offset) and ends up owned by the demoted parent object, while
the parent's old file gets the child's records written at the forkpoint
offset and ends up owned by the promoted child; `forkpoint`s are
exchanged.  Returns (promoted chain, demoted chain). -/
def swapWithParentStep (childWork parentWork : Nat)
    (child parent : ChainSeg) : ChainSeg × ChainSeg :=
  if childWork ≤ parentWork then (child, parent)
  else
    let parentBranchSize := parent.forkpoint + parent.headers.length - child.forkpoint
    let myData := child.headers
    let parentData :=
      (parent.headers.drop (child.forkpoint - parent.forkpoint)).take parentBranchSize
    ({ forkpoint := parent.forkpoint
       headers := parent.headers.take (child.forkpoint - parent.forkpoint) ++ myData },
     { forkpoint := child.forkpoint, headers := parentData })

/-! ## save_chunk (src/electrum/blockchain.py lines 360-378) -/

/-- `constants.net.max_checkpoint()` with `cpCount` checkpoint entries. -/
def max_checkpoint (cpCount : Nat) : Nat := max 0 (cpCount * 2016 - 1)

/-- `Blockchain.write(data, offset, truncate)` on a raw byte store: the
file is truncated at `offset` before writing when requested, otherwise
the data overwrites in place.  (The code skips truncation when `offset`
equals the layout offset of the current size; that refinement is not
exercised by the claims settled here.) -/
def writeStore (store data : Bytes) (offset : Nat) (doTrunc : Bool) : Bytes :=
  if doTrunc then store.take offset ++ data
  else store.take offset ++ data ++ store.drop (offset + data.length)

/-- The non-delegating tail of `Blockchain.save_chunk`: compute the byte
delta of the chunk relative to this chain's forkpoint through the layout
policy `offsetOf` (modelled from the spec: `static_header_offset` lives
in coins.py, not under src/), trim the part owned by an ancestor, write,
truncating unless the chunk is within the checkpoint region.  The
`swap_with_parent` trigger is modelled separately
(`swapWithParentStep`). -/
def save_chunk_own (offsetOf : Nat → Nat) (cpCount : Nat)
    (forkpoint : Nat) (store : Bytes) (idx : Nat) (chunk : Bytes) : Bytes :=
  let delta : Int := (offsetOf (idx * 2016) : Int) - offsetOf forkpoint
  let chunk2 := if delta < 0 then chunk.drop (-delta).toNat else chunk
  let delta2 : Nat := if delta < 0 then 0 else delta.toNat
  let withinCp : Bool := decide (idx * 2016 < max_checkpoint cpCount)
  writeStore store chunk2 delta2 (! withinCp)

/-- `Blockchain.save_chunk(index, chunk)` on a world of one chain plus
the root chain (`get_best_chain()`, forkpoint 0): chunks inside the
checkpoint region are the root's responsibility.  Returns the pair
(this chain's store, root's store) after the call. -/
def save_chunk (offsetOf : Nat → Nat) (cpCount : Nat) (isRoot : Bool)
    (forkpoint : Nat) (store rootStore : Bytes) (idx : Nat)
    (chunk : Bytes) : Bytes × Bytes :=
  if idx * 2016 < max_checkpoint cpCount ∧ ¬ isRoot then
    (store, save_chunk_own offsetOf cpCount 0 rootStore idx chunk)
  else
    (save_chunk_own offsetOf cpCount forkpoint store idx chunk, rootStore)

deriving instance DecidableEq for Except

/-! ## Concrete instances used by witnesses and counterexamples -/

/-- A header with constant bits `0x1e00ffff` and 60-second spacing at
height `i`, used to exercise the difficulty engine. -/
def mkC2Hdr (i : Int) : Header :=
  { version := 7, prev_block_hash := some (List.replicate 32 0)
    merkle_root := List.replicate 32 0, timestamp := 60 * i
    bits := 0x1e00ffff, nonce := 0, block_height := i
    acc_check_point := [] }

/-- A stored chain holding `mkC2Hdr` headers at heights 978..1002. -/
def readC2 : Int → Option Header :=
  fun i => if 978 ≤ i ∧ i ≤ 1002 then some (mkC2Hdr i) else none

/-- A header whose `prev_block_hash` is `None`. -/
def hdrNoPrev : Header :=
  { version := 1, prev_block_hash := none
    merkle_root := List.replicate 32 3, timestamp := 1000
    bits := 0x1e00ffff, nonce := 9, block_height := 2
    acc_check_point := [] }

/-- A small concrete header with a real `prev_block_hash`. -/
def hdrW : Header :=
  { version := 2, prev_block_hash := some (List.replicate 32 1)
    merkle_root := List.replicate 32 2, timestamp := 123456
    bits := 0x1d00ffff, nonce := 42, block_height := 5
    acc_check_point := [] }

/-- A one-header store: height 5 holds `hdrW`. -/
def readW : Int → Option Header := fun i => if i = 5 then some hdrW else none

/-- Parent chain segment for the swap witness: heights 0 and 1. -/
def parentSeg : ChainSeg :=
  { forkpoint := 0, headers := [hdrW, hdrNoPrev] }

/-- Child chain segment for the swap witness: forked at height 1. -/
def childSeg : ChainSeg :=
  { forkpoint := 1, headers := [mkC2Hdr 1] }

end WagerrSpec

namespace WagerrSpec

/-! ## Theorems -/

/-- C7: `root_from_proof` folds over the branch, combining
`hash(sibling ++ running)` when the low bit of `index` is 1 and
`hash(running ++ sibling)` otherwise while halving `index`; it errors
exactly when `index` is at least `2 ^ (branch length)` (some index bit
survives consuming the whole branch), and on an empty branch with index 0
it returns the leaf hash unchanged. -/
theorem root_from_proof_spec (f : Bytes → Bytes) (leaf : Bytes)
    (branch : List Bytes) (index : Nat) :
    (isErr (root_from_proof f leaf branch index) = true
       ↔ 2 ^ branch.length ≤ index)
    ∧ root_from_proof f leaf [] 0 = .ok leaf
    ∧ (∀ e rest, root_from_proof f leaf (e :: rest) index =
        root_from_proof f
          (if index % 2 = 1 then f (e ++ leaf) else f (leaf ++ e))
          rest (index / 2)) := by
  refine ⟨?_, rfl, fun e rest => rfl⟩
  induction branch generalizing leaf index with
  | nil =>
      by_cases h : index = 0
      · subst h; simp [root_from_proof, isErr]
      · simp [root_from_proof, isErr, h]
        omega
  | cons e rest ih =>
      rw [root_from_proof, ih]
      rw [List.length_cons, pow_succ, Nat.le_div_iff_mul_le (by norm_num : 0 < 2)]

/-- C8: `get_hash` returns the all-zero digest at height -1, the network
genesis constant at height 0, and at any other height errors with
`MissingHeader` exactly when no header is stored there, otherwise
returning the stored header's hash. -/
theorem get_hash_spec (qF sF : Bytes → Bytes) (readH : Int → Option Header) :
    get_hash qF sF readH (-1) = .ok (List.replicate 32 0)
    ∧ get_hash qF sF readH 0 = .ok GENESIS
    ∧ ∀ h : Int, h ≠ -1 → h ≠ 0 →
        (isErr (get_hash qF sF readH h) = true ↔ readH h = none)
        ∧ ∀ hdr, readH h = some hdr →
            get_hash qF sF readH h = .ok (hash_header qF sF (some hdr)) := by
  refine ⟨rfl, rfl, fun h h1 h0 => ⟨?_, fun hdr hh => ?_⟩⟩
  · rw [get_hash, if_neg h1, if_neg h0]
    cases hr : readH h <;> simp [isErr]
  · rw [get_hash, if_neg h1, if_neg h0, hh]

/-- Witness for C8 at height 5 over the store `readW`. -/
theorem get_hash_spec_witness :
    (5 : Int) ≠ -1 ∧ (5 : Int) ≠ 0 ∧ readW 5 = some hdrW ∧
    get_hash id id readW 5 = .ok (hash_header id id (some hdrW)) :=
  ⟨by decide, by decide, rfl,
    ((get_hash_spec id id readW).2.2 5 (by decide) (by decide)).2 hdrW rfl⟩

/-- C10: `hash_header` maps `None` to the all-zero digest (64 zero hex
characters, i.e. 32 zero bytes) instead of raising, and a header whose
`prev_block_hash` is `None` is hashed as if that field held the all-zero
hash. -/
theorem hash_header_none_spec (qF sF : Bytes → Bytes) :
    hash_header qF sF none = List.replicate 32 0
    ∧ ∀ h : Header, h.prev_block_hash = none →
        hash_header qF sF (some h) =
          hash_header qF sF
            (some { h with prev_block_hash := some (List.replicate 32 0) }) := by
  refine ⟨rfl, fun h hp => ?_⟩
  simp [hash_header, hp]

/-- Witness for C10 on a concrete header with a `None` previous hash. -/
theorem hash_header_none_spec_witness :
    hdrNoPrev.prev_block_hash = none ∧
    hash_header id id (some hdrNoPrev) =
      hash_header id id
        (some { hdrNoPrev with prev_block_hash := some (List.replicate 32 0) }) :=
  ⟨rfl, (hash_header_none_spec id id).2 hdrNoPrev rfl⟩

/-- C3: a chunk whose headers lie entirely within the checkpoint horizon,
saved on a non-root chain, is delegated to the root chain and the
non-root chain's own byte store is left untouched. -/
theorem save_chunk_delegates (offsetOf : Nat → Nat) (cpCount forkpoint : Nat)
    (store rootStore chunk : Bytes) (idx : Nat)
    (hwithin : idx * 2016 + 2015 ≤ max_checkpoint cpCount) :
    save_chunk offsetOf cpCount false forkpoint store rootStore idx chunk
      = (store, save_chunk_own offsetOf cpCount 0 rootStore idx chunk) := by
  rw [save_chunk, if_pos]
  exact ⟨by omega, by simp⟩

/-- Witness for C3: chunk 0 with one checkpoint (horizon height 2015). -/
theorem save_chunk_delegates_witness :
    0 * 2016 + 2015 ≤ max_checkpoint 1 ∧
    save_chunk (fun h => 80 * h) 1 false 2016 [1, 2] [3, 4] 0 [5, 6]
      = ([1, 2], save_chunk_own (fun h => 80 * h) 1 0 [3, 4] 0 [5, 6]) :=
  ⟨by decide,
    save_chunk_delegates (fun h => 80 * h) 1 2016 [1, 2] [3, 4] [5, 6] 0
      (by decide)⟩

end WagerrSpec

namespace WagerrSpec

/-- Length of the 4-byte little-endian encoding. -/
lemma intToLE4_length (i : Int) : (intToLE4 i).length = 4 := rfl

/-- Taking exactly the length of the left append part yields it. -/
lemma takeLenApp {α : Type} (a b : List α) (n : Nat) (h : a.length = n) :
    (a ++ b).take n = a := by
  subst h
  simp

/-- Dropping exactly the length of the left append part yields the rest. -/
lemma dropLenApp {α : Type} (a b : List α) (n : Nat) (h : a.length = n) :
    (a ++ b).drop n = b := by
  subst h
  simp

/-- Little-endian 4-byte encoding round-trips on naturals below 2^32. -/
lemma decodeLE_intToLE4 (v : Nat) (hv : v < 2 ^ 32) :
    decodeLE (intToLE4 (v : Int)) = v := by
  simp only [intToLE4, decodeLE, List.foldr]
  omega

/-- Little-endian 4-byte encoding round-trips on integers in [0, 2^32). -/
lemma decodeLE_intToLE4_int (t : Int) (h0 : 0 ≤ t) (h1 : t < 2 ^ 32) :
    ((decodeLE (intToLE4 t) : Nat) : Int) = t := by
  simp only [intToLE4, decodeLE, List.foldr]
  omega

/-- C4: `deserialize_header` fails with `InvalidHeader` exactly when the
input is empty or its length differs from the layout policy's mandated
size for the height; otherwise it returns the record with the fixed
fields decoded little-endian (hash fields in display order) and
`block_height` set to the height argument. -/
theorem deserialize_header_spec (sizeAt : Int → Nat) (s : Bytes) (height : Int) :
    (isErr (deserialize_header sizeAt s height) = true
       ↔ (s = [] ∨ s.length ≠ sizeAt height))
    ∧ (s ≠ [] → s.length = sizeAt height →
        deserialize_header sizeAt s height = .ok
          { version := decodeLE (slice s 0 4)
            prev_block_hash := some (slice s 4 36).reverse
            merkle_root := (slice s 36 68).reverse
            timestamp := (decodeLE (slice s 68 72) : Nat)
            bits := decodeLE (slice s 72 76)
            nonce := decodeLE (slice s 76 80)
            block_height := height
            acc_check_point :=
              if PRE_ZEROCOIN_HEADER_SIZE < s.length then
                (s.drop PRE_ZEROCOIN_HEADER_SIZE).reverse
              else [] }) := by
  constructor
  · by_cases he : s = [] <;> by_cases hl : s.length = sizeAt height <;>
      simp [deserialize_header, he, hl, isErr]
  · intro h1 h2
    rw [deserialize_header, if_neg h1, if_neg (by omega)]

/-- Witness for C4: an all-zero 80-byte buffer at height 3 with a layout
mandating 80 bytes. -/
theorem deserialize_header_spec_witness :
    (List.replicate 80 (0 : Nat)) ≠ [] ∧
    (List.replicate 80 (0 : Nat)).length = 80 ∧
    deserialize_header (fun _ => 80) (List.replicate 80 0) 3 = .ok
      { version := 0, prev_block_hash := some (List.replicate 32 0)
        merkle_root := List.replicate 32 0, timestamp := 0
        bits := 0, nonce := 0, block_height := 3, acc_check_point := [] } := by
  have h := (deserialize_header_spec (fun _ => 80) (List.replicate 80 0) 3).2
    (by decide) (by decide)
  exact ⟨by decide, by decide, by rw [h]; rfl⟩

/-- C6: serializing a header whose layout-mandated size matches its
serialized form and deserializing it back at its own height returns the
original record, and hashing the header is deterministic. -/
theorem serialize_header_roundtrip (sizeAt : Int → Nat) (qF sF : Bytes → Bytes)
    (h : Header) (p : Bytes)
    (hp : h.prev_block_hash = some p)
    (hp32 : p.length = 32) (hm32 : h.merkle_root.length = 32)
    (hv : h.version < 2 ^ 32) (hts0 : 0 ≤ h.timestamp) (hts : h.timestamp < 2 ^ 32)
    (hb : h.bits < 2 ^ 32) (hn : h.nonce < 2 ^ 32)
    (hsz : sizeAt h.block_height = 80 + h.acc_check_point.length) :
    ∃ s, serialize_header h = some s
      ∧ deserialize_header sizeAt s h.block_height = .ok h
      ∧ hash_header qF sF (some h) = hash_header qF sF (some h) := by
  obtain ⟨ver, pbh, mr, ts, bits, non, bh, acc⟩ := h
  simp only at hp hp32 hm32 hv hts0 hts hb hn hsz
  subst hp
  refine ⟨serializeFields ver p mr ts bits non acc, rfl, ?_, rfl⟩
  dsimp only
  set s := serializeFields ver p mr ts bits non acc with hs
  have hsr : s = intToLE4 ver ++ (p.reverse ++ (mr.reverse ++ (intToLE4 ts ++
      (intToLE4 bits ++ (intToLE4 non ++ acc.reverse))))) := by
    rw [hs, serializeFields]
    simp only [List.append_assoc]
  have t1 : s.take 4 = intToLE4 ver := by
    rw [hsr]; exact takeLenApp _ _ _ (intToLE4_length _)
  have e1 : s.drop 4 = p.reverse ++ (mr.reverse ++ (intToLE4 ts ++
      (intToLE4 bits ++ (intToLE4 non ++ acc.reverse)))) := by
    rw [hsr]; exact dropLenApp _ _ _ (intToLE4_length _)
  have t2 : (s.drop 4).take 32 = p.reverse := by
    rw [e1]; exact takeLenApp _ _ _ (by simp [hp32])
  have e2 : (s.drop 4).drop 32 = mr.reverse ++ (intToLE4 ts ++
      (intToLE4 bits ++ (intToLE4 non ++ acc.reverse))) := by
    rw [e1]; exact dropLenApp _ _ _ (by simp [hp32])
  have t3 : ((s.drop 4).drop 32).take 32 = mr.reverse := by
    rw [e2]; exact takeLenApp _ _ _ (by simp [hm32])
  have e3 : ((s.drop 4).drop 32).drop 32 = intToLE4 ts ++
      (intToLE4 bits ++ (intToLE4 non ++ acc.reverse)) := by
    rw [e2]; exact dropLenApp _ _ _ (by simp [hm32])
  have t4 : (((s.drop 4).drop 32).drop 32).take 4 = intToLE4 ts := by
    rw [e3]; exact takeLenApp _ _ _ (intToLE4_length _)
  have e4 : (((s.drop 4).drop 32).drop 32).drop 4 = intToLE4 bits ++
      (intToLE4 non ++ acc.reverse) := by
    rw [e3]; exact dropLenApp _ _ _ (intToLE4_length _)
  have t5 : ((((s.drop 4).drop 32).drop 32).drop 4).take 4 = intToLE4 bits := by
    rw [e4]; exact takeLenApp _ _ _ (intToLE4_length _)
  have e5 : ((((s.drop 4).drop 32).drop 32).drop 4).drop 4 = intToLE4 non
      ++ acc.reverse := by
    rw [e4]; exact dropLenApp _ _ _ (intToLE4_length _)
  have t6 : (((((s.drop 4).drop 32).drop 32).drop 4).drop 4).take 4
      = intToLE4 non := by
    rw [e5]; exact takeLenApp _ _ _ (intToLE4_length _)
  have e6 : (((((s.drop 4).drop 32).drop 32).drop 4).drop 4).drop 4
      = acc.reverse := by
    rw [e5]; exact dropLenApp _ _ _ (intToLE4_length _)
  have hdrop : ∀ a b : Nat, (s.drop a).drop b = s.drop (a + b) :=
    fun a b => List.drop_drop b a s
  have hslen : s.length = 80 + acc.length := by
    rw [hsr]
    simp [intToLE4_length, hp32, hm32]
    omega
  have hs80 : s.drop 80 = acc.reverse := by
    rw [hdrop, hdrop, hdrop, hdrop, hdrop] at e6
    norm_num at e6
    exact e6
  have hsl1 : slice s 0 4 = s.take 4 := by
    rw [slice, List.drop_zero]
  have hsl2 : slice s 4 36 = (s.drop 4).take 32 := rfl
  have hsl3 : slice s 36 68 = ((s.drop 4).drop 32).take 32 := by
    rw [slice, hdrop]
  have hsl4 : slice s 68 72 = (((s.drop 4).drop 32).drop 32).take 4 := by
    rw [slice, hdrop, hdrop]
  have hsl5 : slice s 72 76 = ((((s.drop 4).drop 32).drop 32).drop 4).take 4 := by
    rw [slice, hdrop, hdrop, hdrop]
  have hsl6 : slice s 76 80
      = (((((s.drop 4).drop 32).drop 32).drop 4).drop 4).take 4 := by
    rw [slice, hdrop, hdrop, hdrop, hdrop]
  rw [deserialize_header,
    if_neg (by
      intro hnil
      rw [hnil] at hslen
      simp only [List.length_nil] at hslen
      omega),
    if_neg (by omega)]
  refine congrArg Except.ok ?_
  have f1 : decodeLE (slice s 0 4) = ver := by
    rw [hsl1, t1, decodeLE_intToLE4 ver hv]
  have f2 : (slice s 4 36).reverse = p := by
    rw [hsl2, t2, List.reverse_reverse]
  have f3 : (slice s 36 68).reverse = mr := by
    rw [hsl3, t3, List.reverse_reverse]
  have f4 : ((decodeLE (slice s 68 72) : Nat) : Int) = ts := by
    rw [hsl4, t4]; exact decodeLE_intToLE4_int ts hts0 hts
  have f5 : decodeLE (slice s 72 76) = bits := by
    rw [hsl5, t5, decodeLE_intToLE4 bits hb]
  have f6 : decodeLE (slice s 76 80) = non := by
    rw [hsl6, t6, decodeLE_intToLE4 non hn]
  have f7 : (if PRE_ZEROCOIN_HEADER_SIZE < s.length then
      (s.drop PRE_ZEROCOIN_HEADER_SIZE).reverse else []) = acc := by
    simp only [PRE_ZEROCOIN_HEADER_SIZE]
    rcases acc with _ | ⟨a, as⟩
    · rw [if_neg (by simp [hslen])]
    · rw [if_pos (by simp [hslen]), hs80, List.reverse_reverse]
  rw [f1, f2, f3, f4, f5, f6, f7]

/-- Witness for C6 on `hdrW`, whose serialized size is the base 80
bytes. -/
theorem serialize_header_roundtrip_witness :
    hdrW.prev_block_hash = some (List.replicate 32 1) ∧
    (fun _ : Int => 80) hdrW.block_height = 80 + hdrW.acc_check_point.length ∧
    ∃ s, serialize_header hdrW = some s
      ∧ deserialize_header (fun _ => 80) s hdrW.block_height = .ok hdrW
      ∧ hash_header id id (some hdrW) = hash_header id id (some hdrW) :=
  ⟨rfl, by decide,
    serialize_header_roundtrip (fun _ => 80) id id hdrW (List.replicate 32 1)
      rfl (by decide) (by decide) (by decide) (by decide) (by decide)
      (by decide) (by decide) (by decide)⟩

end WagerrSpec

namespace WagerrSpec

/-- `get_hash` only inspects the store at the queried height. -/
lemma get_hash_congrAt (qF sF : Bytes → Bytes) (r1 r2 : Int → Option Header)
    (h : Int) (e : r1 h = r2 h) :
    get_hash qF sF r1 h = get_hash qF sF r2 h := by
  rw [get_hash, get_hash, e]

/-- `read_header` at a height the chain itself owns reads the own store. -/
lemma chainRead_own (c : ChainSeg) (pr : Int → Option Header) (h : Int)
    (hlow : (c.forkpoint : Int) ≤ h)
    (hhigh : h < (c.forkpoint : Int) + c.headers.length) :
    chainRead c pr h = c.headers.get? (h - c.forkpoint).toNat := by
  rw [chainRead, if_neg (by omega), if_neg (by omega), if_neg (by omega)]

/-- `read_header` below the forkpoint delegates to the parent. -/
lemma chainRead_delegate (c : ChainSeg) (pr : Int → Option Header) (h : Int)
    (h0 : 0 ≤ h) (hlt : h < (c.forkpoint : Int)) :
    chainRead c pr h = pr h := by
  rw [chainRead, if_neg (by omega), if_pos hlt]

/-- After a swap, reading through the promoted chain agrees with reading
through the old child (which delegated below its forkpoint to the old
parent) at every height the promoted chain owns. -/
lemma swap_strong_read (gp : Int → Option Header) (P C : List Header)
    (fp fc : Nat) (hfp : fp < fc) (hle : fc ≤ fp + P.length) (h : Int)
    (h1 : (fp : Int) ≤ h)
    (h2 : h < (fp : Int) + (P.take (fc - fp) ++ C).length) :
    chainRead ⟨fp, P.take (fc - fp) ++ C⟩ gp h
      = chainRead ⟨fc, C⟩ (chainRead ⟨fp, P⟩ gp) h := by
  have hd : (P.take (fc - fp)).length = fc - fp := by
    rw [List.length_take]; omega
  have hlen : (P.take (fc - fp) ++ C).length = (fc - fp) + C.length := by
    rw [List.length_append, hd]
  rw [hlen] at h2
  have hL : chainRead ⟨fp, P.take (fc - fp) ++ C⟩ gp h
      = (P.take (fc - fp) ++ C).get? (h - fp).toNat :=
    chainRead_own _ _ _ h1 (by simp only [hlen]; push_cast; omega)
  by_cases hc : h < (fc : Int)
  · rw [hL, List.get?_append (by rw [hd]; omega), List.get?_take (by omega)]
    rw [chainRead_delegate ⟨fc, C⟩ _ h (by omega) (by dsimp only; omega),
      chainRead_own ⟨fp, P⟩ gp h (by dsimp only; omega) (by dsimp only; omega)]
  · rw [hL, List.get?_append_right (by rw [hd]; omega), hd,
      chainRead_own ⟨fc, C⟩ _ h (by dsimp only; omega) (by dsimp only; omega)]
    dsimp only
    congr 1
    omega

/-- After a swap, reading through the demoted chain (which now delegates
below the old child's forkpoint to the promoted chain) agrees with
reading through the old parent at every height the demoted chain owns. -/
lemma swap_weak_read (gp : Int → Option Header) (P C : List Header)
    (fp fc : Nat) (hfp : fp < fc) (hle : fc ≤ fp + P.length) (h : Int)
    (h1 : (fc : Int) ≤ h)
    (h2 : h < (fc : Int) + ((P.drop (fc - fp)).take (fp + P.length - fc)).length) :
    chainRead ⟨fc, (P.drop (fc - fp)).take (fp + P.length - fc)⟩
        (chainRead ⟨fp, P.take (fc - fp) ++ C⟩ gp) h
      = chainRead ⟨fp, P⟩ gp h := by
  have hwl : ((P.drop (fc - fp)).take (fp + P.length - fc)).length
      = fp + P.length - fc := by
    rw [List.length_take, List.length_drop]; omega
  rw [hwl] at h2
  rw [chainRead_own _ _ h h1 (by dsimp only; simp only [hwl]; omega)]
  dsimp only
  rw [List.get?_take (by omega), List.get?_drop]
  rw [chainRead_own ⟨fp, P⟩ gp h (by dsimp only; omega) (by dsimp only; omega)]
  dsimp only
  congr 1
  omega

/-- C1: when a chain's parent has strictly smaller chainwork, the swap
step preserves every stored header across the swapped pair: at every
height owned by the promoted chain after the swap, `get_hash` through it
equals `get_hash` through the pre-swap child, and at every height owned
by the demoted chain after the swap, `get_hash` through it equals
`get_hash` through the pre-swap parent. -/
theorem swap_with_parent_preserves (qF sF : Bytes → Bytes)
    (gp : Int → Option Header) (child parent : ChainSeg) (cw pw : Nat)
    (hwork : pw < cw)
    (hfp : parent.forkpoint < child.forkpoint)
    (hle : child.forkpoint ≤ parent.forkpoint + parent.headers.length)
    (h : Int) :
    (((swapWithParentStep cw pw child parent).1.forkpoint : Int) ≤ h →
      h < ((swapWithParentStep cw pw child parent).1.forkpoint : Int)
            + (swapWithParentStep cw pw child parent).1.headers.length →
      get_hash qF sF (chainRead (swapWithParentStep cw pw child parent).1 gp) h
        = get_hash qF sF (chainRead child (chainRead parent gp)) h)
    ∧ (((swapWithParentStep cw pw child parent).2.forkpoint : Int) ≤ h →
      h < ((swapWithParentStep cw pw child parent).2.forkpoint : Int)
            + (swapWithParentStep cw pw child parent).2.headers.length →
      get_hash qF sF
          (chainRead (swapWithParentStep cw pw child parent).2
            (chainRead (swapWithParentStep cw pw child parent).1 gp)) h
        = get_hash qF sF (chainRead parent gp) h) := by
  obtain ⟨cf, ch⟩ := child
  obtain ⟨pf, ph⟩ := parent
  simp only at hfp hle
  have hsw : swapWithParentStep cw pw ⟨cf, ch⟩ ⟨pf, ph⟩
      = (⟨pf, ph.take (cf - pf) ++ ch⟩,
         ⟨cf, (ph.drop (cf - pf)).take (pf + ph.length - cf)⟩) := by
    rw [swapWithParentStep, if_neg (by omega)]
  rw [hsw]
  constructor
  · intro h1 h2
    exact get_hash_congrAt qF sF _ _ h
      (swap_strong_read gp ph ch pf cf hfp hle h h1 h2)
  · intro h1 h2
    exact get_hash_congrAt qF sF _ _ h
      (swap_weak_read gp ph ch pf cf hfp hle h h1 h2)

/-- Witness for C1 on a two-header parent and a one-header fork at
height 1, with child chainwork 2 against parent chainwork 1. -/
theorem swap_with_parent_preserves_witness :
    1 < 2 ∧ parentSeg.forkpoint < childSeg.forkpoint ∧
    childSeg.forkpoint ≤ parentSeg.forkpoint + parentSeg.headers.length ∧
    get_hash id id
        (chainRead (swapWithParentStep 2 1 childSeg parentSeg).1 (fun _ => none)) 1
      = get_hash id id (chainRead childSeg (chainRead parentSeg (fun _ => none))) 1 :=
  ⟨by decide, by decide, by decide,
    (swap_with_parent_preserves id id (fun _ => none) childSeg parentSeg 2 1
        (by decide) (by decide) (by decide) 1).1 (by decide) (by decide)⟩

end WagerrSpec

namespace WagerrSpec

/-- Unfolding one step of the chunk-work accumulation loop. -/
lemma fullChunksWork_succ (readH : Int → Option Header) (k v : Nat)
    (h : fullChunksWork readH (k + 1) = some v) :
    ∃ u w, fullChunksWork readH k = some u
      ∧ chainwork_of_header_at_height readH ((k + 1) * 2016 - 1) = some w
      ∧ v = u + 2016 * w := by
  rw [fullChunksWork] at h
  rcases hk : fullChunksWork readH k with _ | u
  · rw [hk] at h
    simp at h
  · rw [hk] at h
    rcases hw : chainwork_of_header_at_height readH ((k + 1) * 2016 - 1)
      with _ | w
    · rw [hw] at h
      simp at h
    · rw [hw] at h
      simp at h
      exact ⟨u, w, rfl, rfl, h.symm⟩

/-- Inversion of a successful `get_chainwork` computation. -/
lemma get_chainwork_inv (readH : Int → Option Header) (h w : Nat)
    (e : get_chainwork readH h = some w) :
    ∃ F W, fullChunksWork readH (h / 2016) = some F
      ∧ chainwork_of_header_at_height readH ((h / 2016 + 1) * 2016 - 1) = some W
      ∧ w = F + (h % 2016 + 1) * W := by
  simp only [get_chainwork] at e
  rcases hF : fullChunksWork readH (h / 2016) with _ | F
  · rw [hF] at e
    simp at e
  · rw [hF] at e
    rcases hW : chainwork_of_header_at_height readH ((h / 2016 + 1) * 2016 - 1)
      with _ | W
    · rw [hW] at e
      simp at e
    · rw [hW] at e
      simp at e
      exact ⟨F, W, rfl, rfl, e.symm⟩

/-- The chunk-work accumulation is monotone in the number of chunks. -/
lemma fullChunksWork_le (readH : Int → Option Header) :
    ∀ j k : Nat, j ≤ k → ∀ v, fullChunksWork readH k = some v →
      ∃ u, fullChunksWork readH j = some u ∧ u ≤ v := by
  intro j k
  induction k with
  | zero =>
      intro hjk v hv
      have : j = 0 := by omega
      exact this ▸ ⟨v, hv, le_rfl⟩
  | succ k ih =>
      intro hjk v hv
      obtain ⟨u, w, hu, _, rfl⟩ := fullChunksWork_succ readH k v hv
      rcases Nat.eq_or_lt_of_le hjk with hj | hj
      · exact hj ▸ ⟨u + 2016 * w, hv, le_rfl⟩
      · obtain ⟨x, hx, hxu⟩ := ih (by omega) u hu
        exact ⟨x, hx, by omega⟩

/-- C5: on a fixed non-testnet chain, `get_chainwork` is monotonically
non-decreasing in height: whenever both computations succeed and
`h1 ≤ h2`, the chainwork at `h1` is at most the chainwork at `h2`. -/
theorem get_chainwork_mono (readH : Int → Option Header) (h1 h2 w1 w2 : Nat)
    (hle : h1 ≤ h2)
    (e1 : get_chainwork readH h1 = some w1)
    (e2 : get_chainwork readH h2 = some w2) : w1 ≤ w2 := by
  obtain ⟨F1, W1, hF1, hW1, rfl⟩ := get_chainwork_inv readH h1 w1 e1
  obtain ⟨F2, W2, hF2, hW2, rfl⟩ := get_chainwork_inv readH h2 w2 e2
  have hq : h1 / 2016 ≤ h2 / 2016 := Nat.div_le_div_right hle
  rcases Nat.eq_or_lt_of_le hq with hqq | hqq
  · rw [hqq] at hF1 hW1
    rw [hF1] at hF2
    rw [hW1] at hW2
    obtain rfl : F1 = F2 := by injection hF2
    obtain rfl : W1 = W2 := by injection hW2
    have hmod : h1 % 2016 ≤ h2 % 2016 := by
      have d1 := Nat.div_add_mod h1 2016
      have d2 := Nat.div_add_mod h2 2016
      omega
    exact Nat.add_le_add_left
      (Nat.mul_le_mul_right _ (by omega)) F1
  · have hstep : fullChunksWork readH (h1 / 2016 + 1)
        = some (F1 + 2016 * W1) := by
      rw [fullChunksWork, hF1, hW1]
      rfl
    obtain ⟨u, hu, huv⟩ :=
      fullChunksWork_le readH (h1 / 2016 + 1) (h2 / 2016) (by omega) F2 hF2
    rw [hstep] at hu
    obtain rfl : u = F1 + 2016 * W1 := by injection hu; omega
    have hp : (h1 % 2016 + 1) * W1 ≤ 2016 * W1 :=
      Nat.mul_le_mul_right _
        (by have := Nat.mod_lt h1 (y := 2016) (by omega); omega)
    omega

/-- Witness for C5 on the empty store at heights 0 and 1, where every
target is the `MIN_POW` floor and each header contributes `2^20` work. -/
theorem get_chainwork_mono_witness :
    (0 : Nat) ≤ 1
    ∧ get_chainwork (fun _ => none) 0 = some (2 ^ 20)
    ∧ get_chainwork (fun _ => none) 1 = some (2 ^ 21)
    ∧ 2 ^ 20 ≤ 2 ^ 21 :=
  ⟨by decide, by decide, by decide,
    get_chainwork_mono (fun _ => none) 0 1 (2 ^ 20) (2 ^ 21) (by decide)
      (by decide) (by decide)⟩

end WagerrSpec

namespace WagerrSpec

/-- The strip loop stops at byte length `B` when `v` fits in `B` bytes
and either `B` is the minimum 3 or the `B`-th byte of `v` is nonzero. -/
lemma stripZeros_eq (v : Nat) : ∀ n B : Nat, 3 ≤ B → B ≤ n →
    v < 2 ^ (8 * B) → (B = 3 ∨ 2 ^ (8 * (B - 1)) ≤ v) →
    stripZeros v n = (v, B) := by
  intro n
  induction n with
  | zero =>
      intro B h3 hBn _ _
      exact absurd h3 (by omega)
  | succ n ih =>
      intro B h3 hBn hvB hlow
      by_cases hB : B = n + 1
      · subst hB
        rw [stripZeros, if_neg]
        rcases hlow with h3' | hlow
        · intro hcon
          exact absurd hcon.1 (by omega)
        · intro hcon
          have hn : 8 * (n + 1 - 1) = 8 * n := by omega
          rw [hn] at hlow
          have hpos := Nat.div_pos hlow (Nat.two_pow_pos (8 * n))
          omega
      · rw [stripZeros,
          if_pos ⟨by omega, Nat.div_eq_of_lt
            (lt_of_lt_of_le hvB (Nat.pow_le_pow_right (by norm_num) (by omega)))⟩]
        exact ih B h3 (by omega) hvB hlow

/-- Evaluating `target_to_bits` once the strip loop's result is known. -/
lemma target_to_bits_eval (t B : Nat) (h248 : t % 2 ^ 248 = t)
    (hstrip : stripZeros t 31 = (t, B)) :
    target_to_bits t =
      if 0x800000 ≤ t / 2 ^ (8 * (B - 3)) then
        ((B + 1) <<< 24) ||| ((t / 2 ^ (8 * (B - 3))) >>> 8)
      else (B <<< 24) ||| (t / 2 ^ (8 * (B - 3))) := by
  simp only [target_to_bits, h248, hstrip]

/-- Recombining an exponent and a 3-byte mantissa. -/
lemma lor_reconstruct (E M : Nat) (hM : M < 2 ^ 24) :
    (E <<< 24) ||| M = E * 2 ^ 24 + M := by
  calc (E <<< 24) ||| M = (2 ^ 24 * E) ||| M := by
        rw [Nat.shiftLeft_eq, Nat.mul_comm]
    _ = 2 ^ 24 * E + M := (Nat.mul_add_lt_is_or hM E).symm
    _ = E * 2 ^ 24 + M := by ring

/-- C9: a 32-bit compact `bits` value with exponent byte in [0x03, 0x1e]
and mantissa in [0x8000, 0x7fffff] round-trips:
`target_to_bits (bits_to_target bits) = bits`. -/
theorem compact_bits_roundtrip (bits : Nat) (h32 : bits < 2 ^ 32)
    (hexpLo : 3 ≤ (bits >>> 24) &&& 0xff)
    (hexpHi : (bits >>> 24) &&& 0xff ≤ 0x1e)
    (hmanLo : 0x8000 ≤ bits &&& 0xffffff)
    (hmanHi : bits &&& 0xffffff ≤ 0x7fffff) :
    ∃ t, bits_to_target bits = some t ∧ target_to_bits t = bits := by
  obtain ⟨E, hE⟩ : ∃ E, (bits >>> 24) &&& 0xff = E := ⟨_, rfl⟩
  obtain ⟨M, hM⟩ : ∃ M, bits &&& 0xffffff = M := ⟨_, rfl⟩
  rw [hE] at hexpLo hexpHi
  rw [hM] at hmanLo hmanHi
  refine ⟨M <<< (8 * (E - 3)), ?_, ?_⟩
  · simp only [bits_to_target]
    rw [hE, hM, if_pos ⟨hexpLo, hexpHi⟩, if_pos ⟨hmanLo, hmanHi⟩]
  · have hff : (0xff : Nat) = 2 ^ 8 - 1 := by norm_num
    have hffffff : (0xffffff : Nat) = 2 ^ 24 - 1 := by norm_num
    have hEdef : E = bits / 2 ^ 24 := by
      rw [← hE, hff, Nat.and_pow_two_sub_one_eq_mod,
        Nat.shiftRight_eq_div_pow]
      omega
    have hMdef : M = bits % 2 ^ 24 := by
      rw [← hM, hffffff, Nat.and_pow_two_sub_one_eq_mod]
    have hbits : bits = E * 2 ^ 24 + M := by
      rw [hEdef, hMdef]
      omega
    have hM15 : 32768 ≤ M := hmanLo
    have hM23 : M < 8388608 := by omega
    have hM24 : M < 2 ^ 24 := by omega
    obtain ⟨e, rfl⟩ : ∃ e, E = e + 3 := ⟨E - 3, by omega⟩
    have he27 : e ≤ 27 := by omega
    have hshift : M <<< (8 * (e + 3 - 3)) = M * 2 ^ (8 * e) := by
      rw [Nat.shiftLeft_eq]
      norm_num
    rw [hshift]
    have htlt : ∀ c : Nat, M < 2 ^ c → M * 2 ^ (8 * e) < 2 ^ (8 * e + c) := by
      intro c hc
      calc M * 2 ^ (8 * e) = 2 ^ (8 * e) * M := by ring
        _ < 2 ^ (8 * e) * 2 ^ c := mul_lt_mul_of_pos_left hc (Nat.two_pow_pos _)
        _ = 2 ^ (8 * e + c) := (pow_add 2 (8 * e) c).symm
    have htge : ∀ c : Nat, 2 ^ c ≤ M → 2 ^ (8 * e + c) ≤ M * 2 ^ (8 * e) := by
      intro c hc
      calc 2 ^ (8 * e + c) = 2 ^ c * 2 ^ (8 * e) := by rw [pow_add]; ring
        _ ≤ M * 2 ^ (8 * e) := Nat.mul_le_mul_right _ hc
    have ht248 : M * 2 ^ (8 * e) % 2 ^ 248 = M * 2 ^ (8 * e) := by
      apply Nat.mod_eq_of_lt
      have h1 : M * 2 ^ (8 * e) < 2 ^ (8 * e + 24) := htlt 24 hM24
      exact lt_of_lt_of_le h1 (Nat.pow_le_pow_right (by norm_num) (by omega))
    rcases Nat.lt_or_ge M 65536 with hM16 | hM16
    · rcases Nat.eq_zero_or_pos e with rfl | hepos
      · -- e = 0 : the stripped string keeps a leading zero byte (B = 3)
        have ht : M * 2 ^ (8 * 0) = M := by norm_num
        rw [ht] at ht248 ⊢
        have hstrip : stripZeros M 31 = (M, 3) :=
          stripZeros_eq M 31 3 (by norm_num) (by norm_num)
            (by norm_num; omega) (Or.inl rfl)
        rw [target_to_bits_eval M 3 ht248 hstrip]
        have hdiv : M / 2 ^ (8 * (3 - 3)) = M := by norm_num
        rw [hdiv, if_neg (by omega), lor_reconstruct 3 M hM24]
        omega
      · -- e ≥ 1, small mantissa: B = e + 2 and the mantissa renormalizes
        have hstrip : stripZeros (M * 2 ^ (8 * e)) 31 = (M * 2 ^ (8 * e), e + 2) := by
          apply stripZeros_eq _ 31 (e + 2) (by omega) (by omega)
          · have := htlt 16 (by omega)
            exact lt_of_lt_of_le this (Nat.pow_le_pow_right (by norm_num) (by omega))
          · refine Or.inr ?_
            have := htge 15 hM15
            exact le_trans (Nat.pow_le_pow_right (by norm_num) (by omega)) this
        rw [target_to_bits_eval _ (e + 2) ht248 hstrip]
        have hdiv : M * 2 ^ (8 * e) / 2 ^ (8 * (e + 2 - 3)) = M * 2 ^ 8 := by
          have h8 : 8 * e = 8 * (e - 1) + 8 := by omega
          have hre : M * 2 ^ (8 * e) = M * 2 ^ 8 * 2 ^ (8 * (e - 1)) := by
            rw [h8, pow_add]
            ring
          have hexp : 8 * (e + 2 - 3) = 8 * (e - 1) := by omega
          rw [hexp, hre, Nat.mul_div_cancel _ (Nat.two_pow_pos _)]
        rw [hdiv, if_pos (by omega)]
        have hback : (M * 2 ^ 8) >>> 8 = M := by
          rw [Nat.shiftRight_eq_div_pow, Nat.mul_div_cancel _ (Nat.two_pow_pos _)]
        rw [hback]
        have hB1 : e + 2 + 1 = e + 3 := by omega
        rw [hB1, lor_reconstruct (e + 3) M hM24]
        omega
    · -- large mantissa: B = e + 3 and the mantissa is read off directly
      have hstrip : stripZeros (M * 2 ^ (8 * e)) 31 = (M * 2 ^ (8 * e), e + 3) := by
        apply stripZeros_eq _ 31 (e + 3) (by omega) (by omega)
        · have := htlt 24 hM24
          exact lt_of_lt_of_le this (Nat.pow_le_pow_right (by norm_num) (by omega))
        · refine Or.inr ?_
          have := htge 16 (by omega)
          exact le_trans (Nat.pow_le_pow_right (by norm_num) (by omega)) this
      rw [target_to_bits_eval _ (e + 3) ht248 hstrip]
      have hdiv : M * 2 ^ (8 * e) / 2 ^ (8 * (e + 3 - 3)) = M := by
        have hexp : 8 * (e + 3 - 3) = 8 * e := by omega
        rw [hexp, Nat.mul_div_cancel _ (Nat.two_pow_pos _)]
      rw [hdiv, if_neg (by omega), lor_reconstruct (e + 3) M hM24]
      omega

/-- Witness for C9 at `bits = 0x1e00ffff` (the chain's constant-bits
fixture value). -/
theorem compact_bits_roundtrip_witness :
    (0x1e00ffff : Nat) < 2 ^ 32
    ∧ 3 ≤ ((0x1e00ffff : Nat) >>> 24) &&& 0xff
    ∧ ((0x1e00ffff : Nat) >>> 24) &&& 0xff ≤ 0x1e
    ∧ 0x8000 ≤ (0x1e00ffff : Nat) &&& 0xffffff
    ∧ (0x1e00ffff : Nat) &&& 0xffffff ≤ 0x7fffff
    ∧ ∃ t, bits_to_target 0x1e00ffff = some t
        ∧ target_to_bits t = 0x1e00ffff :=
  ⟨by decide, by decide, by decide, by decide, by decide,
    compact_bits_roundtrip 0x1e00ffff (by decide) (by decide) (by decide)
      (by decide) (by decide)⟩

end WagerrSpec

namespace WagerrSpec

/-- Any successfully decoded compact target is at least the minimum
mantissa `0x8000`. -/
lemma bits_to_target_ge (bits t : Nat) (h : bits_to_target bits = some t) :
    0x8000 ≤ t := by
  simp only [bits_to_target] at h
  split_ifs at h with h1 h2
  · simp only [Option.some.injEq] at h
    subst h
    rw [Nat.shiftLeft_eq]
    exact le_trans h2.1 (Nat.le_mul_of_pos_right _ (Nat.two_pow_pos _))

/-- The source's clamp (`new_target <= 0 or new_target > limit` sends to
the limit) agrees with clamping to `[1, limit]` once the quotient is at
least 1. -/
lemma clamp_eq (t2 A a D L : Nat) (hD : 0 < D)
    (hnum : D ≤ t2 * (A + a + a)) (hL : 1 ≤ L) :
    (if t2 * (A + a + a) / D = 0 ∨ L < t2 * (A + a + a) / D then L
     else t2 * (A + a + a) / D)
      = max 1 (min (t2 * (A + 2 * a) / D) L) := by
  have h2 : A + 2 * a = A + a + a := by omega
  rw [h2]
  have hX1 : 1 ≤ t2 * (A + a + a) / D := (Nat.one_le_div_iff hD).mpr hnum
  rcases Nat.lt_or_ge L (t2 * (A + a + a) / D) with h | h
  · rw [if_pos (Or.inr h), min_eq_right (le_of_lt h), max_eq_right hL]
  · rw [if_neg (by omega), min_eq_left h, max_eq_right hX1]

/-- A lower bound for the post-proof-of-work retarget numerator. -/
lemma pos_target_num_le (t2 a D A : Nat) (ht2 : 32768 ≤ t2)
    (hDA : D ≤ 32768 * A) : D ≤ t2 * (A + a + a) :=
  le_trans hDA (Nat.mul_le_mul ht2 (by omega))

/-- C2 (amended boundary): for mainnet heights `h` with
`LAST_POW_BLOCK + 2 ≤ h` (so that the previous block is already past the
proof-of-work cutoff, matching the code's `height - 1 > LAST_POW_BLOCK`
branch), whenever the headers at `h-1` and `h-2` resolve and the previous
header's bits decode, `get_target` equals the claim's formula
(`claimC2Formula`). -/
theorem get_target_pos_formula (readH : Int → Option Header)
    (chain : List Header) (height : Int)
    (hh : (LAST_POW_BLOCK : Int) + 2 ≤ height)
    (last lastToLast : Header)
    (hlast : headerFromChain readH chain (height - 1) = some last)
    (hl2 : headerFromChain readH chain (height - 2) = some lastToLast)
    (t : Nat) (ht : bits_to_target last.bits = some t) :
    get_target false readH chain height = claimC2Formula readH chain height := by
  have hh' : (1003 : Int) ≤ height := by
    simp only [LAST_POW_BLOCK] at hh
    omega
  have ht8 : 0x8000 ≤ t := bits_to_target_ge last.bits t ht
  rw [get_target, if_neg (by simp), if_neg (by omega), get_target_wagerr,
    if_neg (by omega), hlast]
  simp only [claimC2Formula, hlast, hl2, ht, Option.some_bind]
  rw [if_neg (by simp only [DGW_PAST_BLOCKS]; omega),
    if_pos (by simp only [LAST_POW_BLOCK]; omega),
    if_pos (by omega)]
  simp only [ht, Option.pure_def, Option.bind_eq_bind, Option.some_bind]
  have ht2 : ∀ b : Bool,
      0x8000 ≤ (if b ∧ ¬ (isfTimeV2 (height - 1) = true) then t <<< 4 else t) := by
    intro b
    split
    · rw [Nat.shiftLeft_eq]
      exact le_trans ht8 (Nat.le_mul_of_pos_right _ (Nat.two_pow_pos _))
    · exact ht8
  have hI : ((if isfTimeV2 height then 2 * 15 * 60 else 40 * 60 : Nat) / 60) = 30
      ∨ ((if isfTimeV2 height then 2 * 15 * 60 else 40 * 60 : Nat) / 60) = 40 := by
    split
    · left; norm_num
    · right; norm_num
  refine congrArg some (clamp_eq _ _ _ _ _ ?_ ?_ ?_)
  · rcases hI with h | h <;> rw [h] <;> norm_num
  · rcases hI with h | h <;> rw [h] <;>
      exact pos_target_num_le _ _ _ _ (ht2 _) (by norm_num)
  · simp only [bnTargetLimit]
    norm_num

/-- Counterexample for C2 as stated: at mainnet height 1002 (which is at
or after `LAST_POW_BLOCK`, with headers at 1001 and 1000 available and
decodable bits), `get_target` follows the dark-gravity-wave averaging
path and differs from the claim's single-previous-header formula. -/
theorem get_target_pos_claim_counterexample :
    (LAST_POW_BLOCK : Int) ≤ 1002
    ∧ headerFromChain readC2 [] (1002 - 1) = some (mkC2Hdr 1001)
    ∧ headerFromChain readC2 [] (1002 - 2) = some (mkC2Hdr 1000)
    ∧ bits_to_target (mkC2Hdr 1001).bits = some (0xffff <<< 216)
    ∧ get_target false readC2 [] 1002 ≠ claimC2Formula readC2 [] 1002 :=
  ⟨by decide, by decide, by decide, by decide, by decide⟩

/-- Witness for the amended C2 at height 1003 over the `readC2` store. -/
theorem get_target_pos_formula_witness :
    (LAST_POW_BLOCK : Int) + 2 ≤ 1003
    ∧ headerFromChain readC2 [] (1003 - 1) = some (mkC2Hdr 1002)
    ∧ headerFromChain readC2 [] (1003 - 2) = some (mkC2Hdr 1001)
    ∧ bits_to_target (mkC2Hdr 1002).bits = some (0xffff <<< 216)
    ∧ get_target false readC2 [] 1003 = claimC2Formula readC2 [] 1003 :=
  ⟨by decide, by decide, by decide, by decide,
    get_target_pos_formula readC2 [] 1003 (by decide) (mkC2Hdr 1002)
      (mkC2Hdr 1001) (by decide) (by decide) (0xffff <<< 216) (by decide)⟩

end WagerrSpec
